import Mathlib

/-!
Verification of the UML diagram editor core logic: entity model, the JS-Map
based merge engine (mergeDiagramModifications in lib/gemini-service.ts),
the dedup-by-id filters, the editor state operations (removeClass,
handleRealtimeUpdate, updateClass drag flag in app/editor/page.tsx), the
realtime message handler and the SSE reconnection state machine
(useRealtimeSync), and the AI modification pipeline error path.
-/

namespace UmlEditor

/-- Position object with numeric x, y (types/uml.ts `position: { x, y }`).
Claims under verification only copy and compare positions, so numbers are
modelled as integers. -/
structure Pos where
  x : Int
  y : Int
deriving DecidableEq

/-- UMLAttribute from types/uml.ts: `{ id, name, type: DataType }`; the
DataType enumeration is modelled as its string value. -/
structure UMLAttribute where
  id : String
  name : String
  type : String
deriving DecidableEq

/-- UMLClass from types/uml.ts: `{ id, name, attributes, position }`.
The position is optional here because the merge code defends against AI
proposals that omit it (`aiClass.position || idMatch.position`). -/
structure UMLClass where
  id : String
  name : String
  attributes : List UMLAttribute
  position : Option Pos
deriving DecidableEq

/-- AssociationClass from types/uml.ts. -/
structure AssociationClass where
  id : String
  name : String
  attributes : List UMLAttribute
  position : Option Pos
deriving DecidableEq

/-- Association from types/uml.ts: six required fields plus three optional
fields (`associationClass?`, `inheritanceType?`, `cascadeDelete?`);
relationship type and multiplicities modelled as their string values. -/
structure Association where
  id : String
  fromClassId : String
  toClassId : String
  fromMultiplicity : String
  toMultiplicity : String
  relationshipType : String
  associationClass : Option AssociationClass
  inheritanceType : Option String
  cascadeDelete : Option Bool
deriving DecidableEq

/-- String.prototype.toLowerCase, modelled as per-character lowercasing of
the character list (adequate for the class names at stake). -/
def jsToLower (s : String) : String :=
  String.mk (s.data.map Char.toLower)

section JsMap

variable {α : Type}

/-- JavaScript Map value: entries in insertion order, keys pairwise distinct.
`map.set(k, v)` overwrites the value in place when the key exists, keeping
the original insertion position, and appends otherwise. -/
def jsSet (m : List (String × α)) (k : String) (v : α) : List (String × α) :=
  if k ∈ m.map Prod.fst then m.map (fun p => if p.1 = k then (k, v) else p)
  else m ++ [(k, v)]

/-- `map.get(k)`: the value stored for `k`, if any. -/
def jsGet (m : List (String × α)) (k : String) : Option α :=
  (m.find? (fun p => p.1 == k)).map Prod.snd

/-- `map.delete(k)`: remove the entry for `k`. -/
def jsDelete (m : List (String × α)) (k : String) : List (String × α) :=
  m.filter (fun p => p.1 != k)

/-- `new Map(entries)`: sequential `set` of every listed entry. -/
def jsOfList (l : List (String × α)) : List (String × α) :=
  l.foldl (fun m p => jsSet m p.1 p.2) []

/-- `Array.from(map.values())`: values in insertion order. -/
def jsValues (m : List (String × α)) : List α :=
  m.map Prod.snd

end JsMap

/-- The defensive dedup-by-id pass at the end of mergeDiagramModifications:
build a Map keyed by id from the list and take its values. Keeps each id at
the position of its first occurrence with the value of its last occurrence. -/
def dedupLastBy {α : Type} (key : α → String) (l : List α) : List α :=
  jsValues (jsOfList (l.map (fun x => (key x, x))))

/-- The seen-set dedup filter of memoizedClasses / memoizedAssociations in
components/diagram-canvas.tsx: keep an element iff its id was not seen yet. -/
def dedupFirstAux {α : Type} (key : α → String) (seen : List String) : List α → List α
  | [] => []
  | x :: xs =>
      if key x ∈ seen then dedupFirstAux key seen xs
      else x :: dedupFirstAux key (key x :: seen) xs

/-- Entry point of the seen-set dedup filter (empty seen set). -/
def dedupFirstBy {α : Type} (key : α → String) (l : List α) : List α :=
  dedupFirstAux key [] l

/-- JavaScript `array.filter((x, index) => f x index)`: filter with the
element position passed to the predicate. -/
def jsFilterWithIndexAux {α : Type} (f : α → Nat → Bool) : Nat → List α → List α
  | _, [] => []
  | i, x :: xs =>
      if f x i then x :: jsFilterWithIndexAux f (i + 1) xs
      else jsFilterWithIndexAux f (i + 1) xs

/-- `array.filter((x, i, self) => ...)` starting at index 0. -/
def jsFilterWithIndex {α : Type} (f : α → Nat → Bool) (l : List α) : List α :=
  jsFilterWithIndexAux f 0 l

/-- The findIndex dedup filter used in app/editor/page.tsx (diagram load,
localStorage fallback and handleRealtimeUpdate):
`self.filter((x, index, self) => index === self.findIndex(y => y.id === x.id))`. -/
def dedupFindIndex {α : Type} (key : α → String) (l : List α) : List α :=
  jsFilterWithIndex (fun x i => l.findIdx (fun y => key y == key x) == i) l

/-- Proof-internal canonical form of first-occurrence dedup: keep the head,
drop every later element sharing its key, recurse. Both source dedup filters
are proved equal to this form. -/
def dedupCanon {α : Type} (key : α → String) : List α → List α
  | [] => []
  | x :: xs => x :: dedupCanon key (xs.filter (fun y => key y != key x))
termination_by l => l.length
decreasing_by
  simp only [List.length_cons]
  have := List.length_filter_le (fun y => key y != key x) xs
  omega

/-- State threaded through the class loop of mergeDiagramModifications:
the two lookup maps (existingClassById, existingClassByName) and the
accumulated mergedClasses array. -/
structure MergeClassState where
  byId : List (String × UMLClass)
  byName : List (String × UMLClass)
  merged : List UMLClass

/-- One iteration of `aiClasses.forEach` in mergeDiagramModifications:
id match first (spread of the proposed class over the existing one, with
position falling back to the existing one), then case-insensitive name
match retaining the existing id, else append the proposed class as-is;
matched entries are deleted from both lookup maps. -/
def mergeClassStep (s : MergeClassState) (aiClass : UMLClass) : MergeClassState :=
  match jsGet s.byId aiClass.id with
  | some idMatch =>
      { byId := jsDelete s.byId aiClass.id
        byName := jsDelete s.byName (jsToLower idMatch.name)
        merged := s.merged ++
          [{ aiClass with position := aiClass.position <|> idMatch.position }] }
  | none =>
      match jsGet s.byName (jsToLower aiClass.name) with
      | some nameMatch =>
          { byId := jsDelete s.byId nameMatch.id
            byName := jsDelete s.byName (jsToLower nameMatch.name)
            merged := s.merged ++
              [{ aiClass with
                  id := nameMatch.id
                  position := aiClass.position <|> nameMatch.position }] }
      | none => { s with merged := s.merged ++ [aiClass] }

/-- The object spread `{ ...existing, ...aiAssoc }` in the association loop:
every required field of the proposed association overwrites the existing one;
an optional field overwrites only when present in the proposal. -/
def spreadAssoc (existing aiAssoc : Association) : Association :=
  { id := aiAssoc.id
    fromClassId := aiAssoc.fromClassId
    toClassId := aiAssoc.toClassId
    fromMultiplicity := aiAssoc.fromMultiplicity
    toMultiplicity := aiAssoc.toMultiplicity
    relationshipType := aiAssoc.relationshipType
    associationClass := aiAssoc.associationClass <|> existing.associationClass
    inheritanceType := aiAssoc.inheritanceType <|> existing.inheritanceType
    cascadeDelete := aiAssoc.cascadeDelete <|> existing.cascadeDelete }

/-- State threaded through the association loop of mergeDiagramModifications. -/
structure MergeAssocState where
  byId : List (String × Association)
  merged : List Association

/-- One iteration of `aiAssociations.forEach`: match only by id, field-merge
via spread when found (deleting the consumed entry), else append as new. -/
def mergeAssocStep (s : MergeAssocState) (aiAssoc : Association) : MergeAssocState :=
  match jsGet s.byId aiAssoc.id with
  | some existing =>
      { byId := jsDelete s.byId aiAssoc.id
        merged := s.merged ++ [spreadAssoc existing aiAssoc] }
  | none => { s with merged := s.merged ++ [aiAssoc] }

/-- Return value of mergeDiagramModifications. -/
structure MergeResult where
  mergedClasses : List UMLClass
  mergedAssociations : List Association
deriving DecidableEq

/-- mergeDiagramModifications from lib/gemini-service.ts: reconcile the
existing diagram with an AI-proposed one. Classes are matched by id, then by
lower-cased name (retaining the existing id); unconsumed existing entries are
appended; a final Map-based dedup-by-id pass closes each phase. Associations
are matched only by id. -/
def mergeDiagramModifications (existingClasses : List UMLClass)
    (existingAssociations : List Association)
    (aiClasses : List UMLClass) (aiAssociations : List Association) : MergeResult :=
  let existingClassById := jsOfList (existingClasses.map (fun cls => (cls.id, cls)))
  let existingClassByName := jsOfList (existingClasses.map (fun cls => (jsToLower cls.name, cls)))
  let s := aiClasses.foldl mergeClassStep ⟨existingClassById, existingClassByName, []⟩
  let mergedClasses := s.merged ++ jsValues s.byId
  let finalClasses := dedupLastBy (fun cls => cls.id) mergedClasses
  let existingAssocById := jsOfList (existingAssociations.map (fun assoc => (assoc.id, assoc)))
  let t := aiAssociations.foldl mergeAssocStep ⟨existingAssocById, []⟩
  let mergedAssociations := t.merged ++ jsValues t.byId
  let finalAssociations := dedupLastBy (fun assoc => assoc.id) mergedAssociations
  ⟨finalClasses, finalAssociations⟩

/-- Local editor state held in app/editor/page.tsx: the classes and
associations arrays. -/
structure EditorState where
  classes : List UMLClass
  associations : List Association
deriving DecidableEq

/-- removeClass from app/editor/page.tsx: drop the class with the given id
and every association touching it. -/
def removeClass (st : EditorState) (id : String) : EditorState :=
  { classes := st.classes.filter (fun cls => cls.id != id)
    associations :=
      st.associations.filter (fun assoc => assoc.fromClassId != id && assoc.toClassId != id) }

/-- handleRealtimeUpdate from app/editor/page.tsx: ignore the snapshot while
the drag flag is set; otherwise dedup both lists by id (findIndex filter) and
replace each piece of state exactly when it differs (JSON deep comparison,
modelled as structural equality) from the current value. -/
def handleRealtimeUpdate (isDragging : Bool) (st : EditorState)
    (newClasses : List UMLClass) (newAssociations : List Association) : EditorState :=
  if isDragging then st
  else
    let uniqueClasses := dedupFindIndex (fun cls => cls.id) newClasses
    let uniqueAssociations := dedupFindIndex (fun assoc => assoc.id) newAssociations
    { classes := if st.classes ≠ uniqueClasses then uniqueClasses else st.classes
      associations :=
        if st.associations ≠ uniqueAssociations then uniqueAssociations
        else st.associations }

/-- Drag flag of updateClass in app/editor/page.tsx: each position update at
time t0 sets the flag and (re)arms a 200ms timer clearing it, so at time t the
flag is set iff some position update happened at t0 ≤ t with t − t0 < 200. -/
def isDraggingAt (dragTimes : List Nat) (t : Nat) : Bool :=
  dragTimes.any (fun t0 => decide (t0 ≤ t ∧ t - t0 < 200))

/-- diagram_data payload of a realtime update (useRealtimeSync). -/
structure DiagramData where
  classes : Option (List UMLClass)
  associations : Option (List Association)
deriving DecidableEq

/-- DiagramUpdate message shape of the SSE stream (useRealtimeSync). -/
structure DiagramUpdate where
  type : String
  diagram_id : String
  diagram_data : Option DiagramData
  timestamp : String
  user_id : Option String
deriving DecidableEq

/-- The echo guard `data.user_id && data.user_id === currentUserId`: the
origin id must be present, truthy (non-empty string) and equal to the local
session id. -/
def isOwnEcho (msgUserId currentUserId : Option String) : Bool :=
  match msgUserId with
  | some u => u != "" && currentUserId == some u
  | none => false

/-- onmessage handler of useRealtimeSync: only messages of type `update`
carrying diagram_data reach the state callback; self-originated ones are
discarded; otherwise onUpdate (handleRealtimeUpdate) runs on the payload
lists, absent lists defaulting to empty. -/
def onMessage (currentUserId : Option String) (isDragging : Bool)
    (st : EditorState) (data : DiagramUpdate) : EditorState :=
  match data.diagram_data with
  | some dd =>
      if data.type = "update" then
        if isOwnEcho data.user_id currentUserId then st
        else handleRealtimeUpdate isDragging st (dd.classes.getD []) (dd.associations.getD [])
      else st
  | none => st

/-- Connection bookkeeping of useRealtimeSync: the reconnect attempt counter
and the inferred not-found flag. -/
structure SyncState where
  reconnectAttempts : Nat
  is404Error : Bool
deriving DecidableEq

/-- maxReconnectAttempts in useRealtimeSync. -/
def maxReconnectAttempts : Nat := 5

/-- Counters as set up by the effect body before the initial connection
(fresh diagram id): both the attempt counter and the not-found flag reset. -/
def initialSyncState : SyncState := ⟨0, false⟩

/-- onopen handler: a successful open resets the attempt counter and the
not-found flag (and clears any pending reconnect timer). -/
def onOpen (_ : SyncState) : SyncState := ⟨0, false⟩

/-- onerror handler for a CLOSED connection: with a zero attempt counter the
closure is taken for a not-found resource and no retry is scheduled; else if
the not-found flag is clear and the counter is below the maximum, the counter
is bumped and a reconnect with delay min(1000·2^attempts, 10000) is scheduled;
else nothing is scheduled. Returns the new counters and the scheduled delay. -/
def onErrorClosed (s : SyncState) : SyncState × Option Nat :=
  if s.reconnectAttempts = 0 then
    ({ s with is404Error := true }, none)
  else if !s.is404Error && s.reconnectAttempts < maxReconnectAttempts then
    let attempts := s.reconnectAttempts + 1
    ({ s with reconnectAttempts := attempts }, some (min (1000 * 2 ^ attempts) 10000))
  else (s, none)

/-- Parsed diagram payload (UMLDiagramJSON in lib/uml-validator.ts). -/
structure UMLDiagramJSON where
  classes : List UMLClass
  associations : List Association

/-- Outcome of validateUMLDiagramJSON (lib/uml-validator.ts) on the cleaned-up
AI response text: validity flag, parsed diagram on success, error message on
failure. The JSON parsing itself happens upstream and is abstracted here. -/
structure ValidationResult where
  isValid : Bool
  diagram : Option UMLDiagramJSON
  error : Option String

/-- JavaScript `a || b` over plain strings: `b` when `a` is empty. -/
def jsOrStr (a b : String) : String :=
  if a = "" then b else a

/-- Response object of modifyExistingDiagram. -/
structure ModifyResponse where
  success : Bool
  diagram : Option MergeResult
  message : String
  error : Option String

/-- Decision logic of modifyExistingDiagram (lib/gemini-service.ts) after
validating the AI response: on `validation.isValid && validation.diagram` the
merge runs and a success response carries its result; otherwise a failure
response carries the validation error and no merge output. -/
def modifyExistingDiagramResult (existingClasses : List UMLClass)
    (existingAssociations : List Association)
    (validation : ValidationResult) : ModifyResponse :=
  match validation.isValid, validation.diagram with
  | true, some d =>
      let aiAssociations := d.associations.map (fun assoc =>
        { id := assoc.id
          fromClassId := assoc.fromClassId
          toClassId := assoc.toClassId
          fromMultiplicity := jsOrStr assoc.fromMultiplicity "1"
          toMultiplicity := jsOrStr assoc.toMultiplicity "1"
          relationshipType := jsOrStr assoc.relationshipType "association"
          associationClass := none
          inheritanceType := none
          cascadeDelete := none : Association })
      let result := mergeDiagramModifications existingClasses existingAssociations
        d.classes aiAssociations
      { success := true
        diagram := some result
        message := "Successfully modified diagram"
        error := none }
  | _, _ =>
      { success := false
        diagram := none
        message := "Failed to generate valid modified UML diagram"
        error := validation.error }

/-- JavaScript `a || b` over an optional string and a fallback: the fallback
is used when the first operand is absent or empty. -/
def jsOrString (a : Option String) (b : String) : String :=
  match a with
  | some s => if s = "" then b else s
  | none => b

/-- handleModifyDiagram in components/diagram-canvas.tsx: on a success
response carrying a diagram, replace the whole local state with it (clearing
the error display); otherwise keep the local state and surface
`response.error || response.message || default` as visible error message. -/
def handleModifyDiagram (st : EditorState) (response : ModifyResponse) :
    EditorState × Option String :=
  match response.success, response.diagram with
  | true, some d => (⟨d.mergedClasses, d.mergedAssociations⟩, none)
  | _, _ =>
      (st, some (jsOrString response.error
        (jsOrString (some response.message) "Error desconocido al modificar el diagrama")))

section JsMapLemmas

variable {α : Type}

theorem jsSet_keys (m : List (String × α)) (k : String) (v : α) :
    (jsSet m k v).map Prod.fst =
      if k ∈ m.map Prod.fst then m.map Prod.fst else m.map Prod.fst ++ [k] := by
  unfold jsSet
  by_cases h : k ∈ m.map Prod.fst
  · rw [if_pos h, if_pos h, List.map_map]
    apply List.map_congr_left
    intro p _
    by_cases hp : p.1 = k
    · simp [Function.comp, hp]
    · simp [Function.comp, hp]
  · rw [if_neg h, if_neg h]
    simp

theorem jsSet_entry_sub {m : List (String × α)} {k : String} {v : α} {p : String × α}
    (hp : p ∈ jsSet m k v) : p ∈ m ∨ p = (k, v) := by
  unfold jsSet at hp
  by_cases h : k ∈ m.map Prod.fst
  · rw [if_pos h] at hp
    rcases List.mem_map.mp hp with ⟨q, hq, hqe⟩
    by_cases hq1 : q.1 = k
    · right
      rw [← hqe]
      simp [hq1]
    · left
      rw [← hqe]
      simpa [hq1] using hq
  · rw [if_neg h] at hp
    rcases List.mem_append.mp hp with h1 | h1
    · exact Or.inl h1
    · right
      simpa using h1

theorem jsGet_eq_none {m : List (String × α)} {k : String} :
    jsGet m k = none ↔ k ∉ m.map Prod.fst := by
  constructor
  · intro h hk
    rcases List.mem_map.mp hk with ⟨p, hp, rfl⟩
    have hnone : m.find? (fun q => q.1 == p.1) = none := by
      simpa [jsGet, Option.map_eq_none'] using h
    have := List.find?_eq_none.mp hnone p hp
    simp at this
  · intro h
    have hnone : m.find? (fun q => q.1 == k) = none := by
      apply List.find?_eq_none.mpr
      intro p hp
      simp only [beq_iff_eq]
      intro hpk
      exact h (List.mem_map.mpr ⟨p, hp, hpk⟩)
    simp [jsGet, hnone]

theorem jsGet_mem {m : List (String × α)} {k : String} {v : α} (h : jsGet m k = some v) :
    (k, v) ∈ m := by
  unfold jsGet at h
  rcases Option.map_eq_some'.mp h with ⟨p, hfind, hsnd⟩
  have hmem := List.mem_of_find?_eq_some hfind
  have hkey := List.find?_some hfind
  simp only [beq_iff_eq] at hkey
  have : (k, v) = p := by
    rw [← hkey, ← hsnd]
  rw [this]
  exact hmem

theorem jsDelete_entry_sub {m : List (String × α)} {k : String} {p : String × α}
    (h : p ∈ jsDelete m k) : p ∈ m :=
  List.mem_of_mem_filter h

theorem jsDelete_keys {m : List (String × α)} {k k' : String} :
    k' ∈ (jsDelete m k).map Prod.fst ↔ k' ∈ m.map Prod.fst ∧ k' ≠ k := by
  unfold jsDelete
  constructor
  · intro h
    rcases List.mem_map.mp h with ⟨p, hp, rfl⟩
    rcases List.mem_filter.mp hp with ⟨hm, hne⟩
    simp only [bne_iff_ne, ne_eq, decide_eq_true_eq] at hne
    exact ⟨List.mem_map.mpr ⟨p, hm, rfl⟩, hne⟩
  · rintro ⟨h, hne⟩
    rcases List.mem_map.mp h with ⟨p, hp, rfl⟩
    refine List.mem_map.mpr ⟨p, List.mem_filter.mpr ⟨hp, ?_⟩, rfl⟩
    simpa [bne_iff_ne] using hne

theorem optOr_assoc (x y z : Option α) : (x.or y).or z = x.or (y.or z) := by
  cases x <;> rfl

theorem optMap_or {β : Type} (f : α → β) (x y : Option α) :
    (x.or y).map f = (x.map f).or (y.map f) := by
  cases x <;> rfl

theorem optOr_none (x : Option α) : x.or none = x := by
  cases x <;> rfl

theorem find?_replace_self {k : String} (m : List (String × α)) (v : α)
    (hm : k ∈ m.map Prod.fst) :
    (m.map (fun p => if p.1 = k then (k, v) else p)).find? (fun p => p.1 == k) = some (k, v) := by
  induction m with
  | nil => simp at hm
  | cons q m ih =>
    by_cases hq : q.1 = k
    · simp only [List.map_cons, if_pos hq]
      exact List.find?_cons_of_pos _ (by simp)
    · simp only [List.map_cons, if_neg hq]
      rw [List.find?_cons_of_neg _ (by simp [hq])]
      apply ih
      rcases List.mem_map.mp hm with ⟨p, hp, hpk⟩
      rcases List.mem_cons.mp hp with rfl | hp2
      · exact absurd hpk hq
      · exact List.mem_map.mpr ⟨p, hp2, hpk⟩

theorem find?_replace_other {k k2 : String} (hne : k2 ≠ k) (m : List (String × α)) (v : α) :
    (m.map (fun p => if p.1 = k then (k, v) else p)).find? (fun p => p.1 == k2) =
      m.find? (fun p => p.1 == k2) := by
  induction m with
  | nil => rfl
  | cons q m ih =>
    by_cases hq : q.1 = k
    · simp only [List.map_cons, if_pos hq]
      rw [List.find?_cons_of_neg _ (by simp only [beq_iff_eq]; exact fun he => hne he.symm),
          List.find?_cons_of_neg _ (by simp only [hq, beq_iff_eq]; exact fun he => hne he.symm)]
      exact ih
    · simp only [List.map_cons, if_neg hq]
      by_cases hqk : q.1 = k2
      · rw [List.find?_cons_of_pos _ (by simp [hqk]), List.find?_cons_of_pos _ (by simp [hqk])]
      · rw [List.find?_cons_of_neg _ (by simp [hqk]), List.find?_cons_of_neg _ (by simp [hqk])]
        exact ih

theorem jsGet_jsSet_self (m : List (String × α)) (k : String) (v : α) :
    jsGet (jsSet m k v) k = some v := by
  unfold jsSet
  by_cases h : k ∈ m.map Prod.fst
  · rw [if_pos h]
    unfold jsGet
    rw [find?_replace_self m v h]
    rfl
  · rw [if_neg h]
    have hfind : m.find? (fun p => p.1 == k) = none := by
      have hn := jsGet_eq_none.mpr h
      unfold jsGet at hn
      exact Option.map_eq_none'.mp hn
    unfold jsGet
    rw [List.find?_append, hfind]
    have hone : List.find? (fun p => p.1 == k) [(k, v)] = some (k, v) :=
      List.find?_cons_of_pos _ (by simp)
    rw [hone]
    rfl

theorem jsGet_jsSet_other {k k2 : String} (m : List (String × α)) (v : α) (h : k2 ≠ k) :
    jsGet (jsSet m k v) k2 = jsGet m k2 := by
  unfold jsSet
  by_cases hm : k ∈ m.map Prod.fst
  · rw [if_pos hm]
    unfold jsGet
    rw [find?_replace_other h]
  · rw [if_neg hm]
    unfold jsGet
    rw [List.find?_append]
    have hone : List.find? (fun p => p.1 == k2) [(k, v)] = none := by
      rw [List.find?_cons_of_neg _ (by simp only [beq_iff_eq]; exact fun he => h he.symm)]
      rfl
    rw [hone, optOr_none]

theorem jsGet_append (a b : List (String × α)) (k : String) :
    jsGet (a ++ b) k = (jsGet a k).or (jsGet b k) := by
  unfold jsGet
  rw [List.find?_append, optMap_or]

theorem jsGet_foldl (l : List (String × α)) :
    ∀ (m : List (String × α)) (k : String),
      jsGet (l.foldl (fun m p => jsSet m p.1 p.2) m) k = (jsGet l.reverse k).or (jsGet m k) := by
  induction l with
  | nil =>
    intro m k
    simp [jsGet, Option.or]
  | cons p l ih =>
    intro m k
    have step : jsGet (jsSet m p.1 p.2) k = (jsGet [p] k).or (jsGet m k) := by
      by_cases hk : k = p.1
      · have hsome : jsGet [p] p.1 = some p.2 := by
          unfold jsGet
          rw [List.find?_cons_of_pos _ (by simp)]
          rfl
        rw [hk, jsGet_jsSet_self, hsome]
        rfl
      · rw [jsGet_jsSet_other _ _ hk]
        have : jsGet [p] k = none := by
          unfold jsGet
          rw [List.find?_cons_of_neg _ (by simp only [beq_iff_eq]; exact fun he => hk he.symm)]
          rfl
        rw [this]
        rfl
    calc jsGet ((p :: l).foldl (fun m q => jsSet m q.1 q.2) m) k
        = (jsGet l.reverse k).or (jsGet (jsSet m p.1 p.2) k) := ih (jsSet m p.1 p.2) k
      _ = (jsGet l.reverse k).or ((jsGet [p] k).or (jsGet m k)) := by rw [step]
      _ = ((jsGet l.reverse k).or (jsGet [p] k)).or (jsGet m k) := (optOr_assoc _ _ _).symm
      _ = (jsGet (l.reverse ++ [p]) k).or (jsGet m k) := by rw [jsGet_append]
      _ = (jsGet ((p :: l).reverse) k).or (jsGet m k) := by rw [List.reverse_cons]

theorem jsGet_jsOfList (l : List (String × α)) (k : String) :
    jsGet (jsOfList l) k = jsGet l.reverse k := by
  unfold jsOfList
  rw [jsGet_foldl]
  have hemp : jsGet ([] : List (String × α)) k = none := rfl
  rw [hemp, optOr_none]


theorem foldl_set_entry_sub (l : List (String × α)) :
    ∀ (m : List (String × α)) (p : String × α),
      p ∈ l.foldl (fun m q => jsSet m q.1 q.2) m → p ∈ m ∨ p ∈ l := by
  induction l with
  | nil => intro m p h; exact Or.inl h
  | cons q l ih =>
    intro m p h
    rcases ih (jsSet m q.1 q.2) p h with h1 | h1
    · rcases jsSet_entry_sub h1 with h2 | h2
      · exact Or.inl h2
      · right
        rw [h2]
        exact List.mem_cons_self _ _
    · exact Or.inr (List.mem_cons_of_mem _ h1)

theorem jsOfList_entry_sub {l : List (String × α)} {p : String × α}
    (h : p ∈ jsOfList l) : p ∈ l := by
  rcases foldl_set_entry_sub l [] p h with h1 | h1
  · simp at h1
  · exact h1

theorem foldl_set_keys_mem (l : List (String × α)) :
    ∀ (m : List (String × α)) (k : String),
      (k ∈ (l.foldl (fun m q => jsSet m q.1 q.2) m).map Prod.fst ↔
        k ∈ m.map Prod.fst ∨ k ∈ l.map Prod.fst) := by
  induction l with
  | nil => intro m k; simp
  | cons q l ih =>
    intro m k
    rw [List.foldl_cons, ih]
    have : k ∈ (jsSet m q.1 q.2).map Prod.fst ↔ k ∈ m.map Prod.fst ∨ k = q.1 := by
      rw [jsSet_keys]
      by_cases h : q.1 ∈ m.map Prod.fst
      · rw [if_pos h]
        constructor
        · exact Or.inl
        · rintro (h1 | rfl)
          · exact h1
          · exact h
      · rw [if_neg h]
        simp
    rw [this]
    simp only [List.map_cons, List.mem_cons]
    tauto

theorem jsOfList_keys_mem {l : List (String × α)} {k : String} :
    k ∈ (jsOfList l).map Prod.fst ↔ k ∈ l.map Prod.fst := by
  unfold jsOfList
  rw [foldl_set_keys_mem]
  simp

theorem foldl_set_eq_append (l : List (String × α)) :
    ∀ (m : List (String × α)), ((m ++ l).map Prod.fst).Nodup →
      l.foldl (fun m q => jsSet m q.1 q.2) m = m ++ l := by
  induction l with
  | nil => intro m _; simp
  | cons q l ih =>
    intro m hnd
    have hq : q.1 ∉ m.map Prod.fst := by
      intro hmem
      have h1 : ((m.map Prod.fst) ++ ((q :: l).map Prod.fst)).Nodup := by
        rw [← List.map_append]
        exact hnd
      have hdisj := List.disjoint_of_nodup_append h1
      exact hdisj hmem (by simp)
    have hset : jsSet m q.1 q.2 = m ++ [q] := by
      unfold jsSet
      rw [if_neg hq]
    rw [List.foldl_cons, hset, ih (m ++ [q]) (by simpa using hnd)]
    simp

theorem jsOfList_eq_self {l : List (String × α)} (h : (l.map Prod.fst).Nodup) :
    jsOfList l = l := by
  unfold jsOfList
  rw [foldl_set_eq_append l [] (by simpa using h)]
  simp

end JsMapLemmas

section DedupLemmas

variable {α : Type}

theorem list_strong_length_induction {P : List α → Prop}
    (h : ∀ l, (∀ m : List α, m.length < l.length → P m) → P l) : ∀ l, P l := by
  suffices hs : ∀ (n : Nat) (l : List α), l.length < n → P l by
    intro l
    exact hs (l.length + 1) l (by omega)
  intro n
  induction n with
  | zero => intro l hl; omega
  | succ n ih =>
    intro l hl
    apply h
    intro m hm
    exact ih m (by omega)

theorem dedupCanon_cons (key : α → String) (x : α) (xs : List α) :
    dedupCanon key (x :: xs) = x :: dedupCanon key (xs.filter (fun y => key y != key x)) := by
  simp [dedupCanon]

theorem dedupCanon_sublist (key : α → String) (l : List α) :
    List.Sublist (dedupCanon key l) l := by
  induction l using list_strong_length_induction with
  | _ l ih =>
    cases l with
    | nil => simp [dedupCanon]
    | cons x xs =>
      rw [dedupCanon_cons]
      refine List.Sublist.cons₂ x ?_
      have hlen : (xs.filter (fun y => key y != key x)).length < (x :: xs).length := by
        have := List.length_filter_le (fun y => key y != key x) xs
        simp only [List.length_cons]
        omega
      exact (ih _ hlen).trans (List.filter_sublist xs)

theorem dedupCanon_mem_sub (key : α → String) {l : List α} {x : α}
    (h : x ∈ dedupCanon key l) : x ∈ l :=
  (dedupCanon_sublist key l).mem h

theorem dedupCanon_keys_nodup (key : α → String) (l : List α) :
    ((dedupCanon key l).map key).Nodup := by
  induction l using list_strong_length_induction with
  | _ l ih =>
    cases l with
    | nil => simp [dedupCanon]
    | cons x xs =>
      rw [dedupCanon_cons]
      simp only [List.map_cons, List.nodup_cons]
      constructor
      · intro hmem
        rcases List.mem_map.mp hmem with ⟨y, hy, hyk⟩
        have hyf := dedupCanon_mem_sub key hy
        have := (List.mem_filter.mp hyf).2
        simp only [bne_iff_ne, ne_eq, decide_eq_true_eq] at this
        exact this hyk
      · have hlen : (xs.filter (fun y => key y != key x)).length < (x :: xs).length := by
          have := List.length_filter_le (fun y => key y != key x) xs
          simp only [List.length_cons]
          omega
        exact ih _ hlen

theorem find?_filter_compat (p q : α → Bool) (l : List α)
    (h : ∀ y, q y = true → p y = true) :
    (l.filter p).find? q = l.find? q := by
  induction l with
  | nil => rfl
  | cons x xs ih =>
    by_cases hp : p x = true
    · rw [List.filter_cons_of_pos hp]
      by_cases hq : q x = true
      · rw [List.find?_cons_of_pos _ hq, List.find?_cons_of_pos _ hq]
      · rw [List.find?_cons_of_neg _ hq, List.find?_cons_of_neg _ hq]
        exact ih
    · rw [List.filter_cons_of_neg hp]
      have hq : ¬q x = true := fun hqx => hp (h x hqx)
      rw [List.find?_cons_of_neg _ hq]
      exact ih

theorem dedupCanon_find? (key : α → String) (l : List α) (k : String) :
    (dedupCanon key l).find? (fun y => key y == k) = l.find? (fun y => key y == k) := by
  induction l using list_strong_length_induction with
  | _ l ih =>
    cases l with
    | nil => simp [dedupCanon]
    | cons x xs =>
      rw [dedupCanon_cons]
      have hlen : (xs.filter (fun y => key y != key x)).length < (x :: xs).length := by
        have := List.length_filter_le (fun y => key y != key x) xs
        simp only [List.length_cons]
        omega
      by_cases hx : key x = k
      · rw [List.find?_cons_of_pos _ (by simp [hx]), List.find?_cons_of_pos _ (by simp [hx])]
      · rw [List.find?_cons_of_neg _ (by simp [hx]), List.find?_cons_of_neg _ (by simp [hx])]
        rw [ih _ hlen]
        apply find?_filter_compat
        intro y hy
        simp only [beq_iff_eq] at hy
        simp only [bne_iff_ne, ne_eq, decide_eq_true_eq]
        intro he
        exact hx (by rw [← he, hy])

theorem dedupCanon_eq_self (key : α → String) {l : List α}
    (h : (l.map key).Nodup) : dedupCanon key l = l := by
  revert h
  induction l using list_strong_length_induction with
  | _ l ih =>
    intro h
    cases l with
    | nil => simp [dedupCanon]
    | cons x xs =>
      rw [dedupCanon_cons]
      simp only [List.map_cons, List.nodup_cons] at h
      have hfl : xs.filter (fun y => key y != key x) = xs := by
        apply List.filter_eq_self.mpr
        intro y hy
        simp only [bne_iff_ne, ne_eq, decide_eq_true_eq]
        intro he
        exact h.1 (List.mem_map.mpr ⟨y, hy, he⟩)
      rw [hfl]
      rw [ih xs (by simp) h.2]

theorem dedupCanon_filter (key : α → String) (q : α → Bool)
    (hq : ∀ a b, key a = key b → q a = q b) (l : List α) :
    (dedupCanon key l).filter q = dedupCanon key (l.filter q) := by
  induction l using list_strong_length_induction with
  | _ l ih =>
    cases l with
    | nil => simp [dedupCanon]
    | cons x xs =>
      have hlen : (xs.filter (fun y => key y != key x)).length < (x :: xs).length := by
        have := List.length_filter_le (fun y => key y != key x) xs
        simp only [List.length_cons]
        omega
      by_cases hx : q x = true
      · rw [dedupCanon_cons, List.filter_cons_of_pos hx, List.filter_cons_of_pos hx,
          dedupCanon_cons]
        rw [ih _ hlen, List.filter_filter, List.filter_filter]
        have hcomm : List.filter (fun a => q a && (key a != key x)) xs
            = List.filter (fun a => (key a != key x) && q a) xs := by
          apply List.filter_congr
          intro y _
          exact Bool.and_comm _ _
        rw [hcomm]
      · rw [dedupCanon_cons, List.filter_cons_of_neg hx, List.filter_cons_of_neg hx]
        rw [ih _ hlen, List.filter_filter]
        have hsame : ∀ m : List α, m.filter (fun y => q y && (key y != key x)) = m.filter q := by
          intro m
          apply List.filter_congr
          intro y _
          cases hqy : q y
          · simp
          · simp only [Bool.true_and]
            have hkne : key y ≠ key x := by
              intro he
              rw [hq y x he] at hqy
              rw [hqy] at hx
              exact hx rfl
            simp [hkne]
        rw [hsame]


theorem dedupFirstAux_eq_canon (key : α → String) :
    ∀ (l : List α) (seen : List String),
      dedupFirstAux key seen l = dedupCanon key (l.filter (fun y => decide (key y ∉ seen))) := by
  intro l
  induction l with
  | nil => intro seen; simp [dedupFirstAux, dedupCanon]
  | cons x xs ih =>
    intro seen
    by_cases hx : key x ∈ seen
    · rw [show dedupFirstAux key seen (x :: xs) = dedupFirstAux key seen xs from by
        simp [dedupFirstAux, hx]]
      rw [List.filter_cons_of_neg (by simp [hx])]
      exact ih seen
    · rw [show dedupFirstAux key seen (x :: xs)
          = x :: dedupFirstAux key (key x :: seen) xs from by simp [dedupFirstAux, hx]]
      rw [List.filter_cons_of_pos (by simp [hx]), dedupCanon_cons, List.filter_filter]
      rw [ih (key x :: seen)]
      congr 2
      apply List.filter_congr
      intro y _
      by_cases h1 : key y = key x
      · simp [h1, hx]
      · by_cases h2 : key y ∈ seen <;> simp [h1, h2]

theorem dedupFirstBy_eq_canon (key : α → String) (l : List α) :
    dedupFirstBy key l = dedupCanon key l := by
  rw [dedupFirstBy, dedupFirstAux_eq_canon]
  congr 1
  apply List.filter_eq_self.mpr
  intro y _
  simp

theorem natBeq_succ (a b : Nat) : ((a + 1 == b + 1) : Bool) = (a == b) := by
  by_cases h : a = b
  · subst h
    simp
  · have h1 : (a == b) = false := by simp [h]
    have h2 : (a + 1 == b + 1) = false := by simp [h]
    rw [h1, h2]

theorem jsFilterWithIndexAux_shift (f : α → Nat → Bool) :
    ∀ (xs : List α) (i : Nat),
      jsFilterWithIndexAux f (i + 1) xs = jsFilterWithIndexAux (fun x j => f x (j + 1)) i xs := by
  intro xs
  induction xs with
  | nil => intro i; rfl
  | cons y ys ih =>
    intro i
    by_cases hf : f y (i + 1)
    · simp only [jsFilterWithIndexAux, hf, if_pos, if_true]
      rw [ih (i + 1)]
    · simp only [jsFilterWithIndexAux, hf, if_false, Bool.false_eq_true, if_neg,
        not_false_eq_true]
      rw [ih (i + 1)]

theorem jsFilterWithIndexAux_and (p : α → Bool) (f : α → Nat → Bool) :
    ∀ (xs : List α) (i : Nat),
      jsFilterWithIndexAux (fun x j => p x && f x j) i xs =
        (jsFilterWithIndexAux f i xs).filter p := by
  intro xs
  induction xs with
  | nil => intro i; rfl
  | cons y ys ih =>
    intro i
    simp only [jsFilterWithIndexAux]
    by_cases hf : f y i = true
    · by_cases hp : p y = true
      · rw [if_pos (by rw [hp, hf]; rfl), if_pos hf, List.filter_cons_of_pos hp, ih]
      · have hpf : p y = false := Bool.eq_false_iff.mpr hp
        rw [if_neg (by rw [hpf]; simp), if_pos hf, List.filter_cons_of_neg (by simp [hpf]), ih]
    · have hff : f y i = false := Bool.eq_false_iff.mpr hf
      rw [if_neg (by rw [hff]; simp), if_neg hf, ih]

theorem dedupFindIndex_cons (key : α → String) (x : α) (xs : List α) :
    dedupFindIndex key (x :: xs) =
      x :: (dedupFindIndex key xs).filter (fun y => key y != key x) := by
  unfold dedupFindIndex jsFilterWithIndex
  have hhead : ((x :: xs).findIdx (fun z => key z == key x) == 0) = true := by
    rw [List.findIdx_cons]
    simp
  rw [show jsFilterWithIndexAux
        (fun y i => (x :: xs).findIdx (fun z => key z == key y) == i) 0 (x :: xs)
      = x :: jsFilterWithIndexAux
        (fun y i => (x :: xs).findIdx (fun z => key z == key y) == i) 1 xs from by
    simp only [jsFilterWithIndexAux, hhead, if_true]]
  rw [jsFilterWithIndexAux_shift]
  have hfun : (fun (y : α) (j : Nat) => ((x :: xs).findIdx (fun z => key z == key y) == j + 1))
      = fun y j => (key y != key x) && (xs.findIdx (fun z => key z == key y) == j) := by
    funext y j
    rw [List.findIdx_cons]
    by_cases hk : key x = key y
    · simp [hk]
    · have h1 : (key x == key y) = false := by simp [hk]
      have h2 : (key y != key x) = true := by
        simp only [bne_iff_ne, ne_eq]
        exact fun he => hk he.symm
      rw [h1, h2]
      simp only [cond_false, Bool.true_and]
      exact natBeq_succ _ _
  rw [hfun, jsFilterWithIndexAux_and]

theorem dedupFindIndex_eq_canon (key : α → String) (l : List α) :
    dedupFindIndex key l = dedupCanon key l := by
  induction l with
  | nil => simp [dedupFindIndex, jsFilterWithIndex, jsFilterWithIndexAux, dedupCanon]
  | cons x xs ih =>
    rw [dedupFindIndex_cons, ih, dedupCanon_cons,
      dedupCanon_filter key _ (fun a b hab => by simp [hab])]

theorem dedupFirstAux_congr (key : α → String) {s1 s2 : List String}
    (h : ∀ k, k ∈ s1 ↔ k ∈ s2) : ∀ l, dedupFirstAux key s1 l = dedupFirstAux key s2 l := by
  intro l
  induction l generalizing s1 s2 with
  | nil => rfl
  | cons x xs ih =>
    by_cases hx : key x ∈ s1
    · rw [show dedupFirstAux key s1 (x :: xs) = dedupFirstAux key s1 xs from by
        simp [dedupFirstAux, hx]]
      rw [show dedupFirstAux key s2 (x :: xs) = dedupFirstAux key s2 xs from by
        simp [dedupFirstAux, (h (key x)).mp hx]]
      exact ih h
    · have hx2 : key x ∉ s2 := fun hc => hx ((h (key x)).mpr hc)
      rw [show dedupFirstAux key s1 (x :: xs) = x :: dedupFirstAux key (key x :: s1) xs from by
        simp [dedupFirstAux, hx]]
      rw [show dedupFirstAux key s2 (x :: xs) = x :: dedupFirstAux key (key x :: s2) xs from by
        simp [dedupFirstAux, hx2]]
      refine congrArg (fun t => x :: t) (ih (fun k => ?_))
      simp only [List.mem_cons]
      constructor
      · rintro (rfl | hk)
        · exact Or.inl rfl
        · exact Or.inr ((h k).mp hk)
      · rintro (rfl | hk)
        · exact Or.inl rfl
        · exact Or.inr ((h k).mpr hk)

theorem dedupFirstAux_map (key : α → String) :
    ∀ (l : List α) (seen : List String),
      (dedupFirstAux key seen l).map key = dedupFirstAux (fun k => k) seen (l.map key) := by
  intro l
  induction l with
  | nil => intro seen; rfl
  | cons x xs ih =>
    intro seen
    by_cases hx : key x ∈ seen
    · rw [show dedupFirstAux key seen (x :: xs) = dedupFirstAux key seen xs from by
        simp [dedupFirstAux, hx]]
      rw [List.map_cons]
      rw [show dedupFirstAux (fun k => k) seen (key x :: xs.map key)
          = dedupFirstAux (fun k => k) seen (xs.map key) from by simp [dedupFirstAux, hx]]
      exact ih seen
    · rw [show dedupFirstAux key seen (x :: xs) = x :: dedupFirstAux key (key x :: seen) xs from by
        simp [dedupFirstAux, hx]]
      rw [List.map_cons, List.map_cons]
      rw [show dedupFirstAux (fun k => k) seen (key x :: xs.map key)
          = key x :: dedupFirstAux (fun k => k) (key x :: seen) (xs.map key) from by
        simp [dedupFirstAux, hx]]
      rw [ih (key x :: seen)]

theorem foldl_set_keys (l : List (String × α)) :
    ∀ m, (l.foldl (fun m p => jsSet m p.1 p.2) m).map Prod.fst
      = m.map Prod.fst ++ dedupFirstAux (fun k => k) (m.map Prod.fst) (l.map Prod.fst) := by
  induction l with
  | nil => intro m; simp [dedupFirstAux]
  | cons p l ih =>
    intro m
    rw [List.foldl_cons, ih]
    by_cases h : p.1 ∈ m.map Prod.fst
    · rw [jsSet_keys, if_pos h]
      simp only [List.map_cons]
      rw [show dedupFirstAux (fun k => k) (m.map Prod.fst) (p.1 :: l.map Prod.fst)
          = dedupFirstAux (fun k => k) (m.map Prod.fst) (l.map Prod.fst) from by
        simp [dedupFirstAux, h]]
    · rw [jsSet_keys, if_neg h]
      simp only [List.map_cons]
      rw [show dedupFirstAux (fun k => k) (m.map Prod.fst) (p.1 :: l.map Prod.fst)
          = p.1 :: dedupFirstAux (fun k => k) (p.1 :: m.map Prod.fst) (l.map Prod.fst) from by
        simp [dedupFirstAux, h]]
      have hcongr : dedupFirstAux (fun k : String => k) (m.map Prod.fst ++ [p.1])
            (l.map Prod.fst)
          = dedupFirstAux (fun k : String => k) (p.1 :: m.map Prod.fst) (l.map Prod.fst) :=
        dedupFirstAux_congr _
          (by intro k; simp only [List.mem_append, List.mem_singleton, List.mem_cons]; tauto) _
      rw [hcongr]
      simp

theorem find?_congr_mem {p q : α → Bool} :
    ∀ {l : List α}, (∀ x ∈ l, p x = q x) → l.find? p = l.find? q := by
  intro l
  induction l with
  | nil => intro _; rfl
  | cons x xs ih =>
    intro h
    by_cases hx : p x = true
    · rw [List.find?_cons_of_pos _ hx,
        List.find?_cons_of_pos _ (by rw [← h x (List.mem_cons_self _ _)]; exact hx)]
    · rw [List.find?_cons_of_neg _ hx,
        List.find?_cons_of_neg _ (by rw [← h x (List.mem_cons_self _ _)]; exact hx)]
      exact ih (fun y hy => h y (List.mem_cons_of_mem _ hy))

theorem jsOfList_pair_consistent (key : α → String) (l : List α) {p : String × α}
    (hp : p ∈ jsOfList (l.map (fun x => (key x, x)))) : p.1 = key p.2 := by
  rcases List.mem_map.mp (jsOfList_entry_sub hp) with ⟨x, _, rfl⟩
  rfl

theorem dedupLastBy_map_key (key : α → String) (l : List α) :
    (dedupLastBy key l).map key = (dedupFirstBy key l).map key := by
  unfold dedupLastBy jsValues
  rw [List.map_map]
  have h1 : List.map (key ∘ Prod.snd) (jsOfList (l.map fun x => (key x, x)))
      = List.map Prod.fst (jsOfList (l.map fun x => (key x, x))) := by
    apply List.map_congr_left
    intro p hp
    exact (jsOfList_pair_consistent key l hp).symm
  rw [h1]
  unfold jsOfList
  rw [foldl_set_keys, List.map_map]
  rw [show (Prod.fst ∘ fun x => (key x, x)) = key from rfl]
  unfold dedupFirstBy
  rw [dedupFirstAux_map]
  simp

theorem dedupLastBy_find? (key : α → String) (l : List α) (k : String) :
    (dedupLastBy key l).find? (fun x => key x == k) = l.reverse.find? (fun x => key x == k) := by
  unfold dedupLastBy jsValues
  rw [List.find?_map]
  have hcongr : (jsOfList (l.map fun x => (key x, x))).find? ((fun x => key x == k) ∘ Prod.snd)
      = (jsOfList (l.map fun x => (key x, x))).find? (fun p => p.1 == k) := by
    apply find?_congr_mem
    intro p hp
    rw [show ((fun x => key x == k) ∘ Prod.snd) p = (key p.2 == k) from rfl,
      ← jsOfList_pair_consistent key l hp]
  rw [hcongr]
  have hget := jsGet_jsOfList (l.map fun x => (key x, x)) k
  unfold jsGet at hget
  rw [hget, ← List.map_reverse, List.find?_map]
  rw [Option.map_map]
  rw [show (Prod.snd ∘ fun x => (key x, x)) = id from rfl, Option.map_id]
  apply find?_congr_mem
  intro x _
  rfl

theorem optAlt_self {β : Type} (o : Option β) : (o <|> o) = o := by
  cases o <;> rfl

theorem dedupLastBy_eq_self (key : α → String) {l : List α}
    (h : (l.map key).Nodup) : dedupLastBy key l = l := by
  unfold dedupLastBy
  rw [jsOfList_eq_self (by rw [List.map_map]; exact h)]
  unfold jsValues
  rw [List.map_map]
  rw [show (Prod.snd ∘ fun x => (key x, x)) = id from rfl, List.map_id]

end DedupLemmas

section MergeLemmas

theorem umlClass_update_self (c : UMLClass) :
    ({ c with position := c.position <|> c.position } : UMLClass) = c := by
  rw [optAlt_self]

theorem spreadAssoc_self (a : Association) : spreadAssoc a a = a := by
  unfold spreadAssoc
  rw [optAlt_self, optAlt_self, optAlt_self]

theorem mergeClassStep_selfFold (rest : List UMLClass) :
    ∀ (acc : List UMLClass) (bn : List (String × UMLClass)),
      (rest.map (fun c => c.id)).Nodup →
      (rest.foldl mergeClassStep ⟨rest.map (fun c => (c.id, c)), bn, acc⟩).merged = acc ++ rest ∧
      (rest.foldl mergeClassStep ⟨rest.map (fun c => (c.id, c)), bn, acc⟩).byId = [] := by
  induction rest with
  | nil =>
    intro acc bn _
    exact ⟨by simp, rfl⟩
  | cons c rest ih =>
    intro acc bn h
    simp only [List.map_cons, List.nodup_cons] at h
    have hget : jsGet ((c.id, c) :: rest.map (fun d => (d.id, d))) c.id = some c := by
      unfold jsGet
      rw [List.find?_cons_of_pos _ (by simp)]
      rfl
    have hdel : jsDelete ((c.id, c) :: rest.map (fun d => (d.id, d))) c.id
        = rest.map (fun d => (d.id, d)) := by
      unfold jsDelete
      rw [List.filter_cons_of_neg (by simp)]
      apply List.filter_eq_self.mpr
      intro p hp
      rcases List.mem_map.mp hp with ⟨d, hd, rfl⟩
      simp only [bne_iff_ne, ne_eq, decide_eq_true_eq]
      intro he
      exact h.1 (List.mem_map.mpr ⟨d, hd, he⟩)
    have hstep : mergeClassStep ⟨(c :: rest).map (fun d => (d.id, d)), bn, acc⟩ c
        = ⟨rest.map (fun d => (d.id, d)), jsDelete bn (jsToLower c.name), acc ++ [c]⟩ := by
      simp only [List.map_cons]
      simp only [mergeClassStep, hget, hdel, umlClass_update_self]
    rw [List.foldl_cons, hstep]
    obtain ⟨h1, h2⟩ := ih (acc ++ [c]) (jsDelete bn (jsToLower c.name)) h.2
    refine ⟨?_, h2⟩
    rw [h1]
    simp

theorem mergeAssocStep_selfFold (rest : List Association) :
    ∀ (acc : List Association),
      (rest.map (fun a => a.id)).Nodup →
      (rest.foldl mergeAssocStep ⟨rest.map (fun a => (a.id, a)), acc⟩).merged = acc ++ rest ∧
      (rest.foldl mergeAssocStep ⟨rest.map (fun a => (a.id, a)), acc⟩).byId = [] := by
  induction rest with
  | nil =>
    intro acc _
    exact ⟨by simp, rfl⟩
  | cons a rest ih =>
    intro acc h
    simp only [List.map_cons, List.nodup_cons] at h
    have hget : jsGet ((a.id, a) :: rest.map (fun d => (d.id, d))) a.id = some a := by
      unfold jsGet
      rw [List.find?_cons_of_pos _ (by simp)]
      rfl
    have hdel : jsDelete ((a.id, a) :: rest.map (fun d => (d.id, d))) a.id
        = rest.map (fun d => (d.id, d)) := by
      unfold jsDelete
      rw [List.filter_cons_of_neg (by simp)]
      apply List.filter_eq_self.mpr
      intro p hp
      rcases List.mem_map.mp hp with ⟨d, hd, rfl⟩
      simp only [bne_iff_ne, ne_eq, decide_eq_true_eq]
      intro he
      exact h.1 (List.mem_map.mpr ⟨d, hd, he⟩)
    have hstep : mergeAssocStep ⟨(a :: rest).map (fun d => (d.id, d)), acc⟩ a
        = ⟨rest.map (fun d => (d.id, d)), acc ++ [a]⟩ := by
      simp only [List.map_cons]
      simp only [mergeAssocStep, hget, hdel, spreadAssoc_self]
    rw [List.foldl_cons, hstep]
    obtain ⟨h1, h2⟩ := ih (acc ++ [a]) h.2
    refine ⟨?_, h2⟩
    rw [h1]
    simp

theorem find?_of_unique {α : Type} {p : α → Bool} {l : List α} {a : α}
    (ha : a ∈ l) (hpa : p a = true) (huni : ∀ x ∈ l, p x = true → x = a) :
    l.find? p = some a := by
  induction l with
  | nil => cases ha
  | cons x xs ih =>
    by_cases hx : p x = true
    · rw [List.find?_cons_of_pos _ hx]
      rw [huni x (List.mem_cons_self _ _) hx]
    · rw [List.find?_cons_of_neg _ hx]
      rcases List.mem_cons.mp ha with rfl | ha2
      · exact absurd hpa hx
      · exact ih ha2 (fun y hy hpy => huni y (List.mem_cons_of_mem _ hy) hpy)

theorem jsValues_map_pair {α : Type} (key : α → String) (l : List α) :
    jsValues (l.map (fun x => (key x, x))) = l := by
  unfold jsValues
  rw [List.map_map]
  rw [show (Prod.snd ∘ fun x => (key x, x)) = id from rfl, List.map_id]

theorem jsDelete_map_pair {α : Type} (key : α → String) (l : List α) (k : String) :
    jsDelete (l.map (fun x => (key x, x))) k
      = (l.filter (fun x => key x != k)).map (fun x => (key x, x)) := by
  unfold jsDelete
  rw [List.filter_map]
  rfl

theorem dedupLastBy_mem_sub {α : Type} (key : α → String) {l : List α} {x : α}
    (h : x ∈ dedupLastBy key l) : x ∈ l := by
  unfold dedupLastBy jsValues at h
  rcases List.mem_map.mp h with ⟨p, hp, rfl⟩
  rcases List.mem_map.mp (jsOfList_entry_sub hp) with ⟨y, hy, rfl⟩
  exact hy

theorem mem_map_key_iff_find? {α : Type} (key : α → String) (l : List α) (k : String) :
    k ∈ l.map key ↔ (l.find? (fun y => key y == k)).isSome := by
  rw [List.find?_isSome]
  constructor
  · intro h
    rcases List.mem_map.mp h with ⟨x, hx, rfl⟩
    exact ⟨x, hx, by simp⟩
  · rintro ⟨x, hx, hk⟩
    simp only [beq_iff_eq] at hk
    exact List.mem_map.mpr ⟨x, hx, hk⟩

theorem dedupLastBy_mem_key {α : Type} (key : α → String) (l : List α) (k : String) :
    k ∈ (dedupLastBy key l).map key ↔ k ∈ l.map key := by
  rw [mem_map_key_iff_find? key _ k, mem_map_key_iff_find? key l k]
  rw [dedupLastBy_find?]
  rw [show l.reverse.find? (fun y => key y == k)
      = l.reverse.find? (fun y => key y == k) from rfl]
  constructor
  · intro h
    rw [List.find?_isSome] at h ⊢
    rcases h with ⟨x, hx, hk⟩
    exact ⟨x, List.mem_reverse.mp hx, hk⟩
  · intro h
    rw [List.find?_isSome] at h ⊢
    rcases h with ⟨x, hx, hk⟩
    exact ⟨x, List.mem_reverse.mpr hx, hk⟩

theorem mergeAssocFold_pred (P : Association → Prop)
    (hspread : ∀ e a, P a → P (spreadAssoc e a)) :
    ∀ (l : List Association) (t : MergeAssocState),
      (∀ p ∈ t.byId, P p.2) →
      (∀ a ∈ t.merged, P a) →
      (∀ a ∈ l, P a) →
      (∀ a ∈ (l.foldl mergeAssocStep t).merged, P a)
      ∧ (∀ p ∈ (l.foldl mergeAssocStep t).byId, P p.2) := by
  intro l
  induction l with
  | nil =>
    intro t h1 h2 _
    exact ⟨h2, h1⟩
  | cons a l ih =>
    intro t h1 h2 h3
    rw [List.foldl_cons]
    rcases hid : jsGet t.byId a.id with _ | e
    · have hs : mergeAssocStep t a = ⟨t.byId, t.merged ++ [a]⟩ := by
        simp only [mergeAssocStep, hid]
      rw [hs]
      apply ih ⟨t.byId, t.merged ++ [a]⟩ h1
      · intro x hx
        rcases List.mem_append.mp hx with hx1 | hx1
        · exact h2 x hx1
        · rw [List.mem_singleton.mp hx1]
          exact h3 a (List.mem_cons_self _ _)
      · exact fun x hx => h3 x (List.mem_cons_of_mem _ hx)
    · have hs : mergeAssocStep t a
          = ⟨jsDelete t.byId a.id, t.merged ++ [spreadAssoc e a]⟩ := by
        simp only [mergeAssocStep, hid]
      rw [hs]
      apply ih ⟨jsDelete t.byId a.id, t.merged ++ [spreadAssoc e a]⟩
      · intro p hp
        exact h1 p (jsDelete_entry_sub hp)
      · intro x hx
        rcases List.mem_append.mp hx with hx1 | hx1
        · exact h2 x hx1
        · rw [List.mem_singleton.mp hx1]
          exact hspread e a (h3 a (List.mem_cons_self _ _))
      · exact fun x hx => h3 x (List.mem_cons_of_mem _ hx)

theorem mergeClassFold_ids (es : List UMLClass) :
    ∀ (l : List UMLClass) (s : MergeClassState),
      (∀ i, i ∈ es.map (fun c => c.id) →
        i ∈ s.merged.map (fun c => c.id) ∨ i ∈ s.byId.map Prod.fst) →
      (∀ p ∈ s.byName, p.2 ∈ es ∧ p.1 = jsToLower p.2.name) →
      (∀ p ∈ s.byId, p.1 = p.2.id) →
      (∀ c ∈ l, c.id ∉ es.map (fun d => d.id) →
        ∀ e ∈ es, jsToLower e.name ≠ jsToLower c.name) →
      (∀ i, i ∈ es.map (fun c => c.id) →
          i ∈ (l.foldl mergeClassStep s).merged.map (fun c => c.id)
          ∨ i ∈ (l.foldl mergeClassStep s).byId.map Prod.fst)
      ∧ (∀ c ∈ l, c.id ∈ (l.foldl mergeClassStep s).merged.map (fun c => c.id))
      ∧ (∀ x ∈ s.merged, x ∈ (l.foldl mergeClassStep s).merged)
      ∧ (∀ p ∈ (l.foldl mergeClassStep s).byId, p.1 = p.2.id) := by
  intro l
  induction l with
  | nil =>
    intro s h1 h2 h3 _
    exact ⟨h1, by simp, fun x hx => hx, h3⟩
  | cons c l ih =>
    intro s h1 h2 h3 h4
    rw [List.foldl_cons]
    rcases hid : jsGet s.byId c.id with _ | idm
    · rcases hnm : jsGet s.byName (jsToLower c.name) with _ | nm
      · -- no id match, no name match: append the proposed class as-is
        have hs : mergeClassStep s c = ⟨s.byId, s.byName, s.merged ++ [c]⟩ := by
          simp only [mergeClassStep, hid, hnm]
        rw [hs]
        have n1 : ∀ i, i ∈ es.map (fun d => d.id) →
            i ∈ (s.merged ++ [c]).map (fun d : UMLClass => d.id) ∨ i ∈ s.byId.map Prod.fst := by
          intro i hi
          rcases h1 i hi with hm | hb
          · left
            rcases List.mem_map.mp hm with ⟨x, hx, rfl⟩
            exact List.mem_map.mpr ⟨x, List.mem_append_left _ hx, rfl⟩
          · exact Or.inr hb
        obtain ⟨g1, g2, g3, g4⟩ := ih ⟨s.byId, s.byName, s.merged ++ [c]⟩ n1 h2 h3
          (fun d hd => h4 d (List.mem_cons_of_mem _ hd))
        refine ⟨g1, ?_, ?_, g4⟩
        · intro d hd
          rcases List.mem_cons.mp hd with rfl | hd2
          · have hmem : d ∈ s.merged ++ [d] := List.mem_append_right _ (List.mem_singleton_self _)
            exact List.mem_map.mpr ⟨d, g3 d hmem, rfl⟩
          · exact g2 d hd2
        · intro x hx
          exact g3 x (List.mem_append_left _ hx)
      · -- no id match but name match: the existing id nm.id is retained
        have hentry := jsGet_mem hnm
        obtain ⟨hnmes, hkey⟩ := h2 _ hentry
        have hcd : c.id ∈ es.map (fun d => d.id) := by
          by_contra hcd
          exact (h4 c (List.mem_cons_self _ _) hcd nm hnmes) hkey.symm
        have hnotb : c.id ∉ s.byId.map Prod.fst := jsGet_eq_none.mp hid
        have hcm : c.id ∈ s.merged.map (fun d => d.id) := by
          rcases h1 c.id hcd with hm | hb
          · exact hm
          · exact absurd hb hnotb
        have hs : mergeClassStep s c = ⟨jsDelete s.byId nm.id,
            jsDelete s.byName (jsToLower nm.name),
            s.merged ++ [{ c with id := nm.id, position := c.position <|> nm.position }]⟩ := by
          simp only [mergeClassStep, hid, hnm]
        rw [hs]
        have n1 : ∀ i, i ∈ es.map (fun d => d.id) →
            i ∈ (s.merged ++
                [{ c with id := nm.id, position := c.position <|> nm.position }]).map
                (fun d : UMLClass => d.id)
            ∨ i ∈ (jsDelete s.byId nm.id).map Prod.fst := by
          intro i hi
          rcases h1 i hi with hm | hb
          · left
            rcases List.mem_map.mp hm with ⟨x, hx, rfl⟩
            exact List.mem_map.mpr ⟨x, List.mem_append_left _ hx, rfl⟩
          · by_cases hic : i = nm.id
            · left
              subst hic
              exact List.mem_map.mpr
                ⟨{ c with id := nm.id, position := c.position <|> nm.position },
                  List.mem_append_right _ (List.mem_singleton_self _), rfl⟩
            · exact Or.inr (jsDelete_keys.mpr ⟨hb, hic⟩)
        obtain ⟨g1, g2, g3, g4⟩ := ih ⟨jsDelete s.byId nm.id,
            jsDelete s.byName (jsToLower nm.name),
            s.merged ++ [{ c with id := nm.id, position := c.position <|> nm.position }]⟩
          n1 (fun p hp => h2 p (jsDelete_entry_sub hp))
          (fun p hp => h3 p (jsDelete_entry_sub hp))
          (fun d hd => h4 d (List.mem_cons_of_mem _ hd))
        refine ⟨g1, ?_, ?_, g4⟩
        · intro d hd
          rcases List.mem_cons.mp hd with rfl | hd2
          · rcases List.mem_map.mp hcm with ⟨x, hx, hxid⟩
            exact List.mem_map.mpr ⟨x, g3 x (List.mem_append_left _ hx), hxid⟩
          · exact g2 d hd2
        · intro x hx
          exact g3 x (List.mem_append_left _ hx)
    · -- id match: the proposed id (equal to the existing one) is kept
      have hs : mergeClassStep s c = ⟨jsDelete s.byId c.id,
          jsDelete s.byName (jsToLower idm.name),
          s.merged ++ [{ c with position := c.position <|> idm.position }]⟩ := by
        simp only [mergeClassStep, hid]
      rw [hs]
      have n1 : ∀ i, i ∈ es.map (fun d => d.id) →
          i ∈ (s.merged ++ [{ c with position := c.position <|> idm.position }]).map
              (fun d : UMLClass => d.id)
          ∨ i ∈ (jsDelete s.byId c.id).map Prod.fst := by
        intro i hi
        rcases h1 i hi with hm | hb
        · left
          rcases List.mem_map.mp hm with ⟨x, hx, rfl⟩
          exact List.mem_map.mpr ⟨x, List.mem_append_left _ hx, rfl⟩
        · by_cases hic : i = c.id
          · left
            subst hic
            exact List.mem_map.mpr ⟨{ c with position := c.position <|> idm.position },
              List.mem_append_right _ (List.mem_singleton_self _), rfl⟩
          · exact Or.inr (jsDelete_keys.mpr ⟨hb, hic⟩)
      obtain ⟨g1, g2, g3, g4⟩ := ih ⟨jsDelete s.byId c.id,
          jsDelete s.byName (jsToLower idm.name),
          s.merged ++ [{ c with position := c.position <|> idm.position }]⟩
        n1 (fun p hp => h2 p (jsDelete_entry_sub hp))
        (fun p hp => h3 p (jsDelete_entry_sub hp))
        (fun d hd => h4 d (List.mem_cons_of_mem _ hd))
      refine ⟨g1, ?_, ?_, g4⟩
      · intro d hd
        rcases List.mem_cons.mp hd with rfl | hd2
        · have hmem : ({ d with position := d.position <|> idm.position } : UMLClass)
              ∈ s.merged ++ [{ d with position := d.position <|> idm.position }] :=
            List.mem_append_right _ (List.mem_singleton_self _)
          exact List.mem_map.mpr ⟨_, g3 _ hmem, rfl⟩
        · exact g2 d hd2
      · intro x hx
        exact g3 x (List.mem_append_left _ hx)

end MergeLemmas

section ClaimTheorems

/-- Claim C2: merge idempotence — for every diagram (class ids pairwise
distinct and association ids pairwise distinct, the global invariant of the
data model), merging the diagram with itself (proposed equal to existing)
yields a result equal to the original diagram: same ids, same field values,
same order, for both classes and associations. -/
theorem C2_merge_idempotent (cs : List UMLClass) (assocs : List Association)
    (h1 : (cs.map (fun c => c.id)).Nodup) (h2 : (assocs.map (fun a => a.id)).Nodup) :
    mergeDiagramModifications cs assocs cs assocs = ⟨cs, assocs⟩ := by
  simp only [mergeDiagramModifications]
  rw [jsOfList_eq_self (l := cs.map (fun cls => (cls.id, cls))) (by rw [List.map_map]; exact h1)]
  rw [jsOfList_eq_self (l := assocs.map (fun assoc => (assoc.id, assoc)))
    (by rw [List.map_map]; exact h2)]
  obtain ⟨hm, hb⟩ :=
    mergeClassStep_selfFold cs [] (jsOfList (cs.map fun cls => (jsToLower cls.name, cls))) h1
  obtain ⟨ham, hab⟩ := mergeAssocStep_selfFold assocs [] h2
  rw [hm, hb, ham, hab]
  simp only [List.nil_append, jsValues, List.map_nil, List.append_nil]
  rw [dedupLastBy_eq_self _ h1, dedupLastBy_eq_self _ h2]

/-- Witness for C2 at a concrete two-class, one-association diagram. -/
theorem C2_merge_idempotent_witness :
    mergeDiagramModifications
      [⟨"c1", "A", [], some ⟨0, 0⟩⟩, ⟨"c2", "B", [], some ⟨10, 0⟩⟩]
      [⟨"a1", "c1", "c2", "1", "*", "association", none, none, none⟩]
      [⟨"c1", "A", [], some ⟨0, 0⟩⟩, ⟨"c2", "B", [], some ⟨10, 0⟩⟩]
      [⟨"a1", "c1", "c2", "1", "*", "association", none, none, none⟩]
      = ⟨[⟨"c1", "A", [], some ⟨0, 0⟩⟩, ⟨"c2", "B", [], some ⟨10, 0⟩⟩],
        [⟨"a1", "c1", "c2", "1", "*", "association", none, none, none⟩]⟩ :=
  C2_merge_idempotent
    [⟨"c1", "A", [], some ⟨0, 0⟩⟩, ⟨"c2", "B", [], some ⟨10, 0⟩⟩]
    [⟨"a1", "c1", "c2", "1", "*", "association", none, none, none⟩]
    (by decide) (by decide)

/-- Claim C4: the dedup-by-id filter (both source implementations: the
findIndex filter of the load and realtime paths in app/editor/page.tsx and
the seen-set filter of diagram-canvas.tsx, proved equal) keeps only the first
occurrence of each id, preserves the relative order of kept entries, contains
each id exactly once, and equals the input whenever no id repeats. -/
theorem C4_dedup_contract {α : Type} (key : α → String) (l : List α) :
    dedupFindIndex key l = dedupFirstBy key l
    ∧ List.Sublist (dedupFirstBy key l) l
    ∧ ((dedupFirstBy key l).map key).Nodup
    ∧ (∀ k : String,
        (dedupFirstBy key l).find? (fun y => key y == k) = l.find? (fun y => key y == k))
    ∧ ((l.map key).Nodup → dedupFirstBy key l = l) := by
  have he1 := dedupFirstBy_eq_canon key l
  have he2 := dedupFindIndex_eq_canon key l
  refine ⟨by rw [he1, he2], ?_, ?_, ?_, ?_⟩
  · rw [he1]
    exact dedupCanon_sublist key l
  · rw [he1]
    exact dedupCanon_keys_nodup key l
  · intro k
    rw [he1]
    exact dedupCanon_find? key l k
  · intro h
    rw [he1]
    exact dedupCanon_eq_self key h

/-- Witness for C4 on a concrete duplicate-free class list. -/
theorem C4_dedup_contract_witness :
    (([⟨"a", "A", [], none⟩, ⟨"b", "B", [], none⟩] : List UMLClass).map
        (fun c => c.id)).Nodup
    ∧ dedupFirstBy (fun c : UMLClass => c.id) [⟨"a", "A", [], none⟩, ⟨"b", "B", [], none⟩]
        = [⟨"a", "A", [], none⟩, ⟨"b", "B", [], none⟩] :=
  ⟨by decide,
    (C4_dedup_contract (fun c : UMLClass => c.id)
      [⟨"a", "A", [], none⟩, ⟨"b", "B", [], none⟩]).2.2.2.2 (by decide)⟩

/-- Claim C8: removeClass removes the class with the given id and every
association whose fromClassId or toClassId equals it, keeps every other class
and association unchanged and in order; in particular with classes A, B and
the association A→B, removing A leaves zero associations. -/
theorem C8_removeClass_cascade (st : EditorState) (id : String) :
    (∀ c : UMLClass, c ∈ (removeClass st id).classes ↔ c ∈ st.classes ∧ c.id ≠ id)
    ∧ (∀ a : Association, a ∈ (removeClass st id).associations ↔
        a ∈ st.associations ∧ a.fromClassId ≠ id ∧ a.toClassId ≠ id)
    ∧ List.Sublist (removeClass st id).classes st.classes
    ∧ List.Sublist (removeClass st id).associations st.associations
    ∧ (removeClass ⟨[⟨"A", "A", [], none⟩, ⟨"B", "B", [], none⟩],
        [⟨"ab", "A", "B", "1", "1", "association", none, none, none⟩]⟩ "A").associations
      = [] := by
  refine ⟨?_, ?_, List.filter_sublist _, List.filter_sublist _, by decide⟩
  · intro c
    unfold removeClass
    simp only [List.mem_filter, bne_iff_ne, ne_eq, decide_eq_true_eq]
  · intro a
    unfold removeClass
    simp only [List.mem_filter, Bool.and_eq_true, bne_iff_ne, ne_eq, decide_eq_true_eq]

/-- Claim C10: the final Map-based dedup pass of the merge engine (dedupLastBy,
used for both classes and associations in mergeDiagramModifications) keeps
each id at the position of its first occurrence (same id order as the
keep-first filter) but carries the field values of its last occurrence
(lookup by id returns the last entry of the input with that id). -/
theorem C10_merge_dedup_first_position_last_values
    (l : List UMLClass) (l2 : List Association) :
    ((dedupLastBy (fun cls => cls.id) l).map (fun cls => cls.id)
        = (dedupFirstBy (fun cls => cls.id) l).map (fun cls => cls.id)
      ∧ ∀ k : String, (dedupLastBy (fun cls => cls.id) l).find? (fun cls => cls.id == k)
          = l.reverse.find? (fun cls => cls.id == k))
    ∧ ((dedupLastBy (fun assoc => assoc.id) l2).map (fun assoc => assoc.id)
        = (dedupFirstBy (fun assoc => assoc.id) l2).map (fun assoc => assoc.id)
      ∧ ∀ k : String, (dedupLastBy (fun assoc => assoc.id) l2).find? (fun assoc => assoc.id == k)
          = l2.reverse.find? (fun assoc => assoc.id == k)) :=
  ⟨⟨dedupLastBy_map_key _ l, fun k => dedupLastBy_find? _ l k⟩,
    ⟨dedupLastBy_map_key _ l2, fun k => dedupLastBy_find? _ l2 k⟩⟩

/-- Claim C5, evaluation of the reconnection state machine: a closure on the
very first attempt schedules no retry and sets the not-found flag (first
conjunct, as the claim states); but because onOpen resets the attempt counter
to zero, a closure arriving AFTER a successful open takes the same
attempts-equals-zero branch: the not-found flag is set and no reconnect is
scheduled, so the backoff retry the claim requires never happens. -/
theorem C5_reconnect_code_evaluation :
    onErrorClosed initialSyncState = (⟨0, true⟩, none)
    ∧ onErrorClosed (onOpen initialSyncState) = (⟨0, true⟩, none) := by decide

/-- Counterexample to claim C6 as stated: a pushed update whose origin
identifier is the empty string, equal to the local session identifier, is NOT
discarded (the JavaScript truthiness guard rejects empty strings), and the
local state changes. -/
theorem C6_echo_counterexample :
    (some "" : Option String) = some ""
    ∧ onMessage (some "") false ⟨[], []⟩
        ⟨"update", "d1", some ⟨some [⟨"a", "A", [], none⟩], some []⟩, "ts", some ""⟩
        ≠ ⟨[], []⟩ := by decide

/-- Claim C6 (amended): every realtime update message whose origin identifier
is a non-empty string equal to the local session identifier is discarded by
the onmessage handler: the local classes and associations state is unchanged. -/
theorem C6_echo_suppression (u : String) (hu : u ≠ "") (isDragging : Bool)
    (st : EditorState) (data : DiagramUpdate) (hid : data.user_id = some u) :
    onMessage (some u) isDragging st data = st := by
  unfold onMessage
  cases hdd : data.diagram_data with
  | none => rfl
  | some dd =>
    show (if data.type = "update" then
        if isOwnEcho data.user_id (some u) = true then st
        else handleRealtimeUpdate isDragging st (dd.classes.getD []) (dd.associations.getD [])
      else st) = st
    by_cases ht : data.type = "update"
    · rw [if_pos ht]
      have hecho : isOwnEcho data.user_id (some u) = true := by
        rw [hid]
        unfold isOwnEcho
        simp [hu]
      rw [hecho]
      simp
    · rw [if_neg ht]

/-- Witness for C6 at a concrete non-empty origin id. -/
theorem C6_echo_suppression_witness :
    onMessage (some "u1") false ⟨[], []⟩
      ⟨"update", "d1", some ⟨some [⟨"a", "A", [], none⟩], some []⟩, "ts", some "u1"⟩
      = (⟨[], []⟩ : EditorState) :=
  C6_echo_suppression "u1" (by decide) false ⟨[], []⟩ _ rfl

/-- Claim C7: while the drag flag is set (a position update happened less than
200ms ago) an incoming snapshot leaves the state unchanged; arriving at least
200ms after the last position update (flag cleared) it is applied: both lists
are deduplicated by id (findIndex filter) and become the new state exactly
when they differ from it (the replace-if-different branch yields the
deduplicated lists in either case). -/
theorem C7_drag_suppression (dragTimes : List Nat) (t : Nat) (st : EditorState)
    (nc : List UMLClass) (na : List Association) :
    (isDraggingAt dragTimes t = true →
      handleRealtimeUpdate (isDraggingAt dragTimes t) st nc na = st)
    ∧ ((∀ t0 ∈ dragTimes, t0 + 200 ≤ t) →
        isDraggingAt dragTimes t = false
        ∧ (handleRealtimeUpdate (isDraggingAt dragTimes t) st nc na).classes
            = dedupFindIndex (fun cls => cls.id) nc
        ∧ (handleRealtimeUpdate (isDraggingAt dragTimes t) st nc na).associations
            = dedupFindIndex (fun assoc => assoc.id) na) := by
  constructor
  · intro h
    unfold handleRealtimeUpdate
    rw [h]
    simp
  · intro h
    have hflag : isDraggingAt dragTimes t = false := by
      unfold isDraggingAt
      rw [List.any_eq_false]
      intro t0 ht0
      have := h t0 ht0
      simp only [decide_eq_true_eq, not_and]
      intro _
      omega
    refine ⟨hflag, ?_, ?_⟩
    · unfold handleRealtimeUpdate
      rw [hflag]
      simp only [Bool.false_eq_true, if_false]
      by_cases hc : st.classes = dedupFindIndex (fun cls => cls.id) nc
      · simp [hc]
      · simp [hc]
    · unfold handleRealtimeUpdate
      rw [hflag]
      simp only [Bool.false_eq_true, if_false]
      by_cases hc : st.associations = dedupFindIndex (fun assoc => assoc.id) na
      · simp [hc]
      · simp [hc]

/-- Witness for C7: a snapshot during a drag (50ms after the position update)
is ignored; the same snapshot 200ms after the last position update is applied
deduplicated. -/
theorem C7_drag_suppression_witness :
    handleRealtimeUpdate (isDraggingAt [100] 150) ⟨[], []⟩
        [⟨"a", "A", [], none⟩, ⟨"a", "A2", [], none⟩] [] = ⟨[], []⟩
    ∧ (isDraggingAt [0] 200 = false
        ∧ (handleRealtimeUpdate (isDraggingAt [0] 200) ⟨[], []⟩
            [⟨"a", "A", [], none⟩, ⟨"a", "A2", [], none⟩] []).classes
          = dedupFindIndex (fun cls => cls.id)
              [⟨"a", "A", [], none⟩, ⟨"a", "A2", [], none⟩]
        ∧ (handleRealtimeUpdate (isDraggingAt [0] 200) ⟨[], []⟩
            [⟨"a", "A", [], none⟩, ⟨"a", "A2", [], none⟩] []).associations
          = dedupFindIndex (fun assoc => assoc.id) []) :=
  ⟨(C7_drag_suppression [100] 150 ⟨[], []⟩
      [⟨"a", "A", [], none⟩, ⟨"a", "A2", [], none⟩] []).1 (by decide),
    (C7_drag_suppression [0] 200 ⟨[], []⟩
      [⟨"a", "A", [], none⟩, ⟨"a", "A2", [], none⟩] []).2 (by decide)⟩

/-- Claim C9: when the AI response fails schema validation, the modify
operation returns a failure response carrying the validation error and no
diagram (no merge output), and the caller keeps the local state untouched
while surfacing a visible error message. -/
theorem C9_validation_failure (ec : List UMLClass) (ea : List Association)
    (v : ValidationResult) (st : EditorState) (hv : v.isValid = false) :
    (modifyExistingDiagramResult ec ea v).success = false
    ∧ (modifyExistingDiagramResult ec ea v).diagram = none
    ∧ (modifyExistingDiagramResult ec ea v).error = v.error
    ∧ (handleModifyDiagram st (modifyExistingDiagramResult ec ea v)).1 = st
    ∧ (handleModifyDiagram st (modifyExistingDiagramResult ec ea v)).2.isSome = true := by
  have hres : modifyExistingDiagramResult ec ea v
      = { success := false, diagram := none,
          message := "Failed to generate valid modified UML diagram", error := v.error } := by
    cases hd : v.diagram <;> simp [modifyExistingDiagramResult, hv, hd]
  rw [hres]
  exact ⟨rfl, rfl, rfl, rfl, rfl⟩

/-- Witness for C9 at a concrete failed validation result. -/
theorem C9_validation_failure_witness :
    (modifyExistingDiagramResult [] [] ⟨false, none, some "invalid JSON"⟩).success = false
    ∧ (modifyExistingDiagramResult [] [] ⟨false, none, some "invalid JSON"⟩).diagram = none
    ∧ (modifyExistingDiagramResult [] [] ⟨false, none, some "invalid JSON"⟩).error
        = some "invalid JSON"
    ∧ (handleModifyDiagram ⟨[⟨"a", "A", [], none⟩], []⟩
        (modifyExistingDiagramResult [] [] ⟨false, none, some "invalid JSON"⟩)).1
        = ⟨[⟨"a", "A", [], none⟩], []⟩
    ∧ (handleModifyDiagram ⟨[⟨"a", "A", [], none⟩], []⟩
        (modifyExistingDiagramResult [] [] ⟨false, none, some "invalid JSON"⟩)).2.isSome
        = true :=
  C9_validation_failure [] [] ⟨false, none, some "invalid JSON"⟩
    ⟨[⟨"a", "A", [], none⟩], []⟩ rfl

/-- Counterexample to claim C1 as stated: with two existing classes sharing
the lower-cased name of the proposal, the by-name lookup map holds the LAST
inserted one, so the first matching class E := c1 satisfies every hypothesis
of the claim, yet the unique class with id c1 in the result is the untouched
original, not the proposal-valued merge. -/
theorem C1_name_fallback_counterexample :
    (⟨"c1", "User", [], some ⟨0, 0⟩⟩ : UMLClass) ∈
        ([⟨"c1", "User", [], some ⟨0, 0⟩⟩, ⟨"c3", "user", [], some ⟨5, 5⟩⟩] : List UMLClass)
    ∧ "c2" ∉ ([⟨"c1", "User", [], some ⟨0, 0⟩⟩, ⟨"c3", "user", [], some ⟨5, 5⟩⟩] :
        List UMLClass).map (fun c => c.id)
    ∧ jsToLower "USER" = jsToLower "User"
    ∧ ((mergeDiagramModifications
          [⟨"c1", "User", [], some ⟨0, 0⟩⟩, ⟨"c3", "user", [], some ⟨5, 5⟩⟩] []
          [⟨"c2", "USER", [⟨"a1", "x", "String"⟩], some ⟨1, 1⟩⟩] []).mergedClasses.filter
            (fun c => c.id == "c1"))
        ≠ [⟨"c1", "USER", [⟨"a1", "x", "String"⟩], some ⟨1, 1⟩⟩] := by decide

/-- Claim C1 (amended): name-fallback identity preservation, for an existing
class list with pairwise-distinct ids in which E is the unique class whose
lower-cased name equals the lower-cased name of the proposal, and a proposed
class list consisting of exactly the class P whose id matches no existing id:
the merge result contains exactly one class with E's id, and it carries P's
field values with P's id discarded and E's position retained when P omits
one. -/
theorem C1_name_fallback_identity (es : List UMLClass) (ea aiA : List Association)
    (E P : UMLClass)
    (hE : E ∈ es)
    (hids : (es.map (fun c => c.id)).Nodup)
    (hPid : P.id ∉ es.map (fun c => c.id))
    (hname : jsToLower E.name = jsToLower P.name)
    (huniq : ∀ E2 ∈ es, jsToLower E2.name = jsToLower P.name → E2 = E) :
    (mergeDiagramModifications es ea [P] aiA).mergedClasses.filter (fun c => c.id == E.id)
      = [{ P with id := E.id, position := P.position <|> E.position }] := by
  simp only [mergeDiagramModifications]
  have hbyid : jsOfList (es.map (fun cls => (cls.id, cls))) = es.map (fun cls => (cls.id, cls)) :=
    jsOfList_eq_self (by rw [List.map_map]; exact hids)
  rw [hbyid]
  have hgetid : jsGet (es.map (fun cls => (cls.id, cls))) P.id = none := by
    apply jsGet_eq_none.mpr
    rw [List.map_map]
    exact hPid
  have hgetname : jsGet (jsOfList (es.map (fun cls => (jsToLower cls.name, cls))))
      (jsToLower P.name) = some E := by
    rw [jsGet_jsOfList]
    have hfind : (es.map (fun cls => (jsToLower cls.name, cls))).reverse.find?
        (fun p => p.1 == jsToLower P.name) = some (jsToLower E.name, E) := by
      apply find?_of_unique
      · rw [List.mem_reverse]
        exact List.mem_map.mpr ⟨E, hE, rfl⟩
      · simp [hname]
      · intro x hx hpx
        rw [List.mem_reverse] at hx
        rcases List.mem_map.mp hx with ⟨E2, hE2, rfl⟩
        simp only [beq_iff_eq] at hpx
        rw [huniq E2 hE2 hpx]
    unfold jsGet
    rw [hfind]
    rfl
  rw [List.foldl_cons, List.foldl_nil]
  rw [show mergeClassStep ⟨es.map (fun cls => (cls.id, cls)),
        jsOfList (es.map (fun cls => (jsToLower cls.name, cls))), []⟩ P
      = ⟨jsDelete (es.map (fun cls => (cls.id, cls))) E.id,
        jsDelete (jsOfList (es.map (fun cls => (jsToLower cls.name, cls)))) (jsToLower E.name),
        [{ P with id := E.id, position := P.position <|> E.position }]⟩ from by
    simp only [mergeClassStep, hgetid, hgetname, List.nil_append]]
  rw [jsDelete_map_pair, jsValues_map_pair]
  have hnodup : ((({ P with id := E.id, position := P.position <|> E.position } : UMLClass)
      :: es.filter (fun c => c.id != E.id)).map (fun cls => cls.id)).Nodup := by
    simp only [List.map_cons, List.nodup_cons]
    constructor
    · intro hmem
      rcases List.mem_map.mp hmem with ⟨d, hd, hdid⟩
      have hne := (List.mem_filter.mp hd).2
      simp only [bne_iff_ne, ne_eq, decide_eq_true_eq] at hne
      exact hne hdid
    · have hsub : List.Sublist (es.filter (fun c => c.id != E.id)) es := List.filter_sublist es
      exact hids.sublist (hsub.map (fun cls => cls.id))
  rw [show ([({ P with id := E.id, position := P.position <|> E.position } : UMLClass)]
      ++ es.filter (fun c => c.id != E.id))
    = ({ P with id := E.id, position := P.position <|> E.position } : UMLClass)
      :: es.filter (fun c => c.id != E.id) from rfl]
  rw [dedupLastBy_eq_self _ hnodup]
  rw [List.filter_cons_of_pos (by simp)]
  rw [List.filter_eq_nil_iff.mpr ?_]
  · intro a ha
    have hne := (List.mem_filter.mp ha).2
    simp only [bne_iff_ne, ne_eq, decide_eq_true_eq] at hne
    simp only [beq_iff_eq]
    exact hne

/-- Witness for C1 at the concrete spec example: existing class c1 User and
proposed class c2 User. -/
theorem C1_name_fallback_identity_witness :
    (mergeDiagramModifications [⟨"c1", "User", [], some ⟨0, 0⟩⟩] [] [⟨"c2", "User",
        [⟨"a1", "x", "String"⟩], none⟩] []).mergedClasses.filter (fun c => c.id == "c1")
      = [⟨"c1", "User", [⟨"a1", "x", "String"⟩], some ⟨0, 0⟩⟩] := by
  have h := C1_name_fallback_identity [⟨"c1", "User", [], some ⟨0, 0⟩⟩] [] []
    ⟨"c1", "User", [], some ⟨0, 0⟩⟩ ⟨"c2", "User", [⟨"a1", "x", "String"⟩], none⟩
    (by decide) (by decide) (by decide) (by decide)
    (by intro E2 hE2 _; rcases List.mem_singleton.mp hE2 with rfl; rfl)
  exact h.trans (by decide)

/-- Counterexample to claim C3 as stated: both input diagrams satisfy
endpoint integrity, but the name-fallback merge rewrites the proposed class
id c2 to the existing id c1 while the proposed association still references
c2, which is absent from the merge result's class set. -/
theorem C3_endpoint_integrity_counterexample :
    (∀ a ∈ ([] : List Association),
        a.fromClassId ∈ ([⟨"c1", "User", [], some ⟨0, 0⟩⟩] : List UMLClass).map (fun c => c.id)
        ∧ a.toClassId ∈ ([⟨"c1", "User", [], some ⟨0, 0⟩⟩] : List UMLClass).map (fun c => c.id))
    ∧ (∀ a ∈ ([⟨"a1", "c2", "c4", "1", "1", "association", none, none, none⟩] :
          List Association),
        a.fromClassId ∈ ([⟨"c2", "User", [], some ⟨0, 0⟩⟩, ⟨"c4", "Helper", [], some ⟨0, 0⟩⟩] :
            List UMLClass).map (fun c => c.id)
        ∧ a.toClassId ∈ ([⟨"c2", "User", [], some ⟨0, 0⟩⟩, ⟨"c4", "Helper", [], some ⟨0, 0⟩⟩] :
            List UMLClass).map (fun c => c.id))
    ∧ ∃ a ∈ (mergeDiagramModifications [⟨"c1", "User", [], some ⟨0, 0⟩⟩] []
          [⟨"c2", "User", [], some ⟨0, 0⟩⟩, ⟨"c4", "Helper", [], some ⟨0, 0⟩⟩]
          [⟨"a1", "c2", "c4", "1", "1", "association", none, none, none⟩]).mergedAssociations,
        a.fromClassId ∉ (mergeDiagramModifications [⟨"c1", "User", [], some ⟨0, 0⟩⟩] []
          [⟨"c2", "User", [], some ⟨0, 0⟩⟩, ⟨"c4", "Helper", [], some ⟨0, 0⟩⟩]
          [⟨"a1", "c2", "c4", "1", "1", "association", none, none, none⟩]).mergedClasses.map
            (fun c => c.id) := by decide

/-- Claim C3 (amended): merge-result association endpoint integrity holds for
every pair of input diagrams that individually satisfy endpoint integrity,
provided the name-fallback never fires: every proposed class whose id is
absent from the existing diagram has no case-insensitive name match among the
existing classes. -/
theorem C3_endpoint_integrity (es aiC : List UMLClass) (ea aiA : List Association)
    (hex : ∀ a ∈ ea, a.fromClassId ∈ es.map (fun c => c.id)
        ∧ a.toClassId ∈ es.map (fun c => c.id))
    (hai : ∀ a ∈ aiA, a.fromClassId ∈ aiC.map (fun c => c.id)
        ∧ a.toClassId ∈ aiC.map (fun c => c.id))
    (hnofb : ∀ c ∈ aiC, c.id ∉ es.map (fun d => d.id) →
        ∀ e ∈ es, jsToLower e.name ≠ jsToLower c.name) :
    ∀ a ∈ (mergeDiagramModifications es ea aiC aiA).mergedAssociations,
      a.fromClassId ∈ (mergeDiagramModifications es ea aiC aiA).mergedClasses.map
          (fun c => c.id)
      ∧ a.toClassId ∈ (mergeDiagramModifications es ea aiC aiA).mergedClasses.map
          (fun c => c.id) := by
  intro a ha
  simp only [mergeDiagramModifications] at ha ⊢
  obtain ⟨g1, g2, g3, g4⟩ := mergeClassFold_ids es aiC
    ⟨jsOfList (es.map (fun cls => (cls.id, cls))),
      jsOfList (es.map (fun cls => (jsToLower cls.name, cls))), []⟩
    (by
      intro i hi
      right
      apply jsOfList_keys_mem.mpr
      rw [List.map_map]
      exact hi)
    (by
      intro p hp
      rcases List.mem_map.mp (jsOfList_entry_sub hp) with ⟨e, he, rfl⟩
      exact ⟨he, rfl⟩)
    (by
      intro p hp
      rcases List.mem_map.mp (jsOfList_entry_sub hp) with ⟨e, he, rfl⟩
      rfl)
    hnofb
  have hclass : ∀ i, (i ∈ es.map (fun c => c.id) ∨ i ∈ aiC.map (fun c => c.id)) →
      i ∈ ((aiC.foldl mergeClassStep
          ⟨jsOfList (es.map (fun cls => (cls.id, cls))),
            jsOfList (es.map (fun cls => (jsToLower cls.name, cls))), []⟩).merged
        ++ jsValues (aiC.foldl mergeClassStep
          ⟨jsOfList (es.map (fun cls => (cls.id, cls))),
            jsOfList (es.map (fun cls => (jsToLower cls.name, cls))), []⟩).byId).map
        (fun c => c.id) := by
    intro i hi
    rw [List.map_append]
    rcases hi with hi | hi
    · rcases g1 i hi with hm | hb
      · exact List.mem_append_left _ hm
      · rcases List.mem_map.mp hb with ⟨p, hp, rfl⟩
        rw [g4 p hp]
        exact List.mem_append_right _
          (List.mem_map.mpr ⟨p.2, List.mem_map.mpr ⟨p, hp, rfl⟩, rfl⟩)
    · rcases List.mem_map.mp hi with ⟨c, hc, rfl⟩
      exact List.mem_append_left _ (g2 c hc)
  obtain ⟨q1, q2⟩ := mergeAssocFold_pred
    (fun x => (x.fromClassId ∈ es.map (fun c => c.id)
        ∨ x.fromClassId ∈ aiC.map (fun c => c.id))
      ∧ (x.toClassId ∈ es.map (fun c => c.id) ∨ x.toClassId ∈ aiC.map (fun c => c.id)))
    (by
      intro e b hb
      unfold spreadAssoc
      exact hb)
    aiA ⟨jsOfList (ea.map (fun assoc => (assoc.id, assoc))), []⟩
    (by
      intro p hp
      rcases List.mem_map.mp (jsOfList_entry_sub hp) with ⟨b, hb, rfl⟩
      exact ⟨Or.inl (hex b hb).1, Or.inl (hex b hb).2⟩)
    (by intro x hx; cases hx)
    (by
      intro b hb
      exact ⟨Or.inr (hai b hb).1, Or.inr (hai b hb).2⟩)
  have hPa : (a.fromClassId ∈ es.map (fun c => c.id)
        ∨ a.fromClassId ∈ aiC.map (fun c => c.id))
      ∧ (a.toClassId ∈ es.map (fun c => c.id) ∨ a.toClassId ∈ aiC.map (fun c => c.id)) := by
    have hmem := dedupLastBy_mem_sub _ ha
    rcases List.mem_append.mp hmem with hm | hm
    · exact q1 a hm
    · rcases List.mem_map.mp hm with ⟨p, hp, rfl⟩
      exact q2 p hp
  exact ⟨(dedupLastBy_mem_key _ _ _).mpr (hclass _ hPa.1),
    (dedupLastBy_mem_key _ _ _).mpr (hclass _ hPa.2)⟩

/-- Witness for C3 at a concrete input where the name-fallback does not fire:
one existing class, two genuinely new proposed classes and one proposed
association between them. -/
theorem C3_endpoint_integrity_witness :
    ("cb" : String) ∈ (mergeDiagramModifications [⟨"ca", "Alpha", [], some ⟨0, 0⟩⟩] []
        [⟨"cb", "Beta", [], some ⟨0, 0⟩⟩, ⟨"cc", "Gamma", [], some ⟨0, 0⟩⟩]
        [⟨"ab", "cb", "cc", "1", "1", "association", none, none, none⟩]).mergedClasses.map
          (fun c => c.id)
    ∧ ("cc" : String) ∈ (mergeDiagramModifications [⟨"ca", "Alpha", [], some ⟨0, 0⟩⟩] []
        [⟨"cb", "Beta", [], some ⟨0, 0⟩⟩, ⟨"cc", "Gamma", [], some ⟨0, 0⟩⟩]
        [⟨"ab", "cb", "cc", "1", "1", "association", none, none, none⟩]).mergedClasses.map
          (fun c => c.id) :=
  C3_endpoint_integrity [⟨"ca", "Alpha", [], some ⟨0, 0⟩⟩]
    [⟨"cb", "Beta", [], some ⟨0, 0⟩⟩, ⟨"cc", "Gamma", [], some ⟨0, 0⟩⟩] []
    [⟨"ab", "cb", "cc", "1", "1", "association", none, none, none⟩]
    (by decide) (by decide) (by decide)
    ⟨"ab", "cb", "cc", "1", "1", "association", none, none, none⟩ (by decide)

end ClaimTheorems

end UmlEditor
